import Mathlib

/-!
# Verification of the pykafka wire codec, message-set parser and partition poller

Shallow embedding of `src/kafka/base.py` (class `BaseKafka` and class
`Partition`).  Byte strings are modelled as `List Nat` with every element
below 256.  `struct.pack` of the big-endian unsigned formats `>H`, `>I`,
`>Q` is modelled by `beEnc 2/4/8`; `struct.unpack` of `>H`, `>I`, `>Q`, `>B`
by `beDec`.  Python 2 `binascii.crc32` (which returns a *signed* 32-bit
integer) is modelled by `compute_checksum`, built from the standard
reflected CRC-32 bit algorithm `crc32` followed by reinterpretation of the
32-bit pattern as a two's-complement signed value (`signed32`).
-/

namespace PyKafka

/-! ## Big-endian byte packing (`struct.pack` / `struct.unpack`) -/

/-- The encoder `beEnc w n` is `struct.pack` of `n` into `w` big-endian bytes
(the bytes of `n % 256^w`, most significant first). -/
def beEnc : Nat → Nat → List Nat
  | 0, _ => []
  | w + 1, n => beEnc w (n / 256) ++ [n % 256]

/-- Big-endian `struct.unpack` on a byte list. -/
def beDec (l : List Nat) : Nat :=
  l.foldl (fun a b => a * 256 + b) 0

@[simp] theorem beEnc_length (w n : Nat) : (beEnc w n).length = w := by
  induction w generalizing n with
  | zero => rfl
  | succ k ih => simp [beEnc, ih]

theorem beDec_append (l₁ l₂ : List Nat) :
    beDec (l₁ ++ l₂) = l₂.foldl (fun a b => a * 256 + b) (beDec l₁) := by
  simp [beDec, List.foldl_append]

theorem beDec_beEnc {w n : Nat} (h : n < 256 ^ w) : beDec (beEnc w n) = n := by
  induction w generalizing n with
  | zero => simp [beEnc, beDec]; omega
  | succ k ih =>
    have hdiv : n / 256 < 256 ^ k := by
      rw [Nat.div_lt_iff_lt_mul (by omega)]
      calc n < 256 ^ (k + 1) := h
        _ = 256 ^ k * 256 := by ring
    rw [beEnc, beDec_append, ih hdiv]
    simp [beDec]
    omega

theorem beEnc_mem_lt {w n : Nat} : ∀ b ∈ beEnc w n, b < 256 := by
  induction w generalizing n with
  | zero => simp [beEnc]
  | succ k ih =>
    intro b hb
    rw [beEnc] at hb
    rcases List.mem_append.1 hb with h | h
    · exact ih b h
    · simp at h; omega

/-- Two's-complement reinterpretation of a 32-bit pattern, as done by
Python 2 when a C `int` (e.g. the result of `binascii.crc32`) crosses into
Python:  values with bit 31 set come out negative. -/
def signed32 (n : Nat) : Int :=
  if n < 2 ^ 31 then (n : Int) else (n : Int) - 2 ^ 32

/-- Model of `struct.pack('>i', c)` for a signed 32-bit value: the bytes of the
two's-complement bit pattern `c mod 2^32`. -/
def packInt32 (c : Int) : List Nat :=
  beEnc 4 (c % (2 ^ 32 : Int)).toNat

theorem packInt32_signed32 {n : Nat} (h : n < 2 ^ 32) :
    packInt32 (signed32 n) = beEnc 4 n := by
  unfold packInt32 signed32
  congr 1
  split <;> omega

theorem signed32_inj {a b : Nat} (ha : a < 2 ^ 32) (hb : b < 2 ^ 32)
    (h : signed32 a = signed32 b) : a = b := by
  unfold signed32 at h
  split at h <;> split at h <;> omega

/-! ## CRC-32 (`binascii.crc32`)

The standard reflected CRC-32 with polynomial `0xEDB88320`, initial value
`0xFFFFFFFF` and final xor `0xFFFFFFFF` — the algorithm implemented
(via a lookup table) by `binascii.crc32`, modelled bit by bit. -/

/-- One bit-round of the reflected CRC-32. -/
def crcStep (t : Nat) : Nat :=
  if t % 2 = 1 then (t / 2) ^^^ 0xEDB88320 else t / 2

/-- Iterate `crcStep` the given number of times. -/
def crcRounds : Nat → Nat → Nat
  | 0, t => t
  | n + 1, t => crcRounds n (crcStep t)

/-- Absorb one input byte into the CRC state. -/
def crcByte (s b : Nat) : Nat := crcRounds 8 (s ^^^ b)

/-- Fold the CRC state over a byte list. -/
def crcFold (s : Nat) (l : List Nat) : Nat := l.foldl crcByte s

/-- Standard CRC-32 of a byte string, as an unsigned 32-bit value. -/
def crc32 (l : List Nat) : Nat := crcFold 0xFFFFFFFF l ^^^ 0xFFFFFFFF

/-- Model of `BaseKafka.compute_checksum`: `binascii.crc32(value)`.  In Python 2 the
result is *signed* (two's complement of the 32-bit CRC). -/
def compute_checksum (value : List Nat) : Int := signed32 (crc32 value)

theorem crcStep_lt {t : Nat} (h : t < 2 ^ 32) : crcStep t < 2 ^ 32 := by
  unfold crcStep
  split
  · exact Nat.xor_lt_two_pow (by omega) (by norm_num)
  · omega

theorem crcRounds_lt {n t : Nat} (h : t < 2 ^ 32) : crcRounds n t < 2 ^ 32 := by
  induction n generalizing t with
  | zero => exact h
  | succ k ih => exact ih (crcStep_lt h)

theorem crcByte_lt {s b : Nat} (hs : s < 2 ^ 32) (hb : b < 256) :
    crcByte s b < 2 ^ 32 :=
  crcRounds_lt (Nat.xor_lt_two_pow hs (by omega))

theorem crcFold_lt {s : Nat} {l : List Nat} (hs : s < 2 ^ 32)
    (hl : ∀ b ∈ l, b < 256) : crcFold s l < 2 ^ 32 := by
  induction l generalizing s with
  | nil => exact hs
  | cons a t ih =>
    rw [crcFold, List.foldl_cons]
    exact ih (crcByte_lt hs (hl a (by simp))) (fun b hb => hl b (by simp [hb]))

theorem crc32_lt {l : List Nat} (hl : ∀ b ∈ l, b < 256) : crc32 l < 2 ^ 32 :=
  Nat.xor_lt_two_pow (crcFold_lt (by norm_num) hl) (by norm_num)

theorem crcStep_inj {t₁ t₂ : Nat} (h₁ : t₁ < 2 ^ 32) (h₂ : t₂ < 2 ^ 32)
    (hne : t₁ ≠ t₂) : crcStep t₁ ≠ crcStep t₂ := by
  have hd₁ : t₁ / 2 < 2 ^ 31 := by omega
  have hd₂ : t₂ / 2 < 2 ^ 31 := by omega
  unfold crcStep
  rcases Nat.mod_two_eq_zero_or_one t₁ with hm₁ | hm₁ <;>
    rcases Nat.mod_two_eq_zero_or_one t₂ with hm₂ | hm₂ <;>
      simp only [hm₁, hm₂] <;> norm_num
  · -- both even: halves differ
    omega
  · -- even vs odd: bit 31 differs
    intro h
    have h31 := congrArg (fun x => Nat.testBit x 31) h
    simp only [Nat.testBit_xor] at h31
    rw [Nat.testBit_lt_two_pow hd₁, Nat.testBit_lt_two_pow hd₂] at h31
    revert h31
    decide
  · -- odd vs even: bit 31 differs
    intro h
    have h31 := congrArg (fun x => Nat.testBit x 31) h
    simp only [Nat.testBit_xor] at h31
    rw [Nat.testBit_lt_two_pow hd₁, Nat.testBit_lt_two_pow hd₂] at h31
    revert h31
    decide
  · -- both odd: xor-cancel, halves differ
    intro h
    have : t₁ / 2 = t₂ / 2 := by
      have := congrArg (fun x => x ^^^ 0xEDB88320) h
      simpa [Nat.xor_assoc] using this
    omega

theorem crcRounds_inj {n t₁ t₂ : Nat} (h₁ : t₁ < 2 ^ 32) (h₂ : t₂ < 2 ^ 32)
    (hne : t₁ ≠ t₂) : crcRounds n t₁ ≠ crcRounds n t₂ := by
  induction n generalizing t₁ t₂ with
  | zero => exact hne
  | succ k ih =>
    exact ih (crcStep_lt h₁) (crcStep_lt h₂) (crcStep_inj h₁ h₂ hne)

theorem crcByte_inj_state {s₁ s₂ b : Nat} (h₁ : s₁ < 2 ^ 32) (h₂ : s₂ < 2 ^ 32)
    (hb : b < 256) (hne : s₁ ≠ s₂) : crcByte s₁ b ≠ crcByte s₂ b := by
  refine crcRounds_inj (Nat.xor_lt_two_pow h₁ (by omega))
    (Nat.xor_lt_two_pow h₂ (by omega)) ?_
  intro h
  apply hne
  have := congrArg (fun x => x ^^^ b) h
  simpa [Nat.xor_assoc] using this

theorem crcByte_inj_byte {s b₁ b₂ : Nat} (hs : s < 2 ^ 32) (hb₁ : b₁ < 2 ^ 32)
    (hb₂ : b₂ < 2 ^ 32) (hne : b₁ ≠ b₂) : crcByte s b₁ ≠ crcByte s b₂ := by
  refine crcRounds_inj (Nat.xor_lt_two_pow hs hb₁)
    (Nat.xor_lt_two_pow hs hb₂) ?_
  intro h
  apply hne
  have := congrArg (fun x => s ^^^ x) h
  simpa [← Nat.xor_assoc] using this

theorem crcFold_inj_state {l : List Nat} :
    ∀ {s₁ s₂ : Nat}, s₁ < 2 ^ 32 → s₂ < 2 ^ 32 → (∀ b ∈ l, b < 256) →
      s₁ ≠ s₂ → crcFold s₁ l ≠ crcFold s₂ l := by
  induction l with
  | nil => intro _ _ _ _ _ hne; exact hne
  | cons a t ih =>
    intro s₁ s₂ h₁ h₂ hl hne
    rw [crcFold, List.foldl_cons, crcFold, List.foldl_cons]
    have ha : a < 256 := hl a (by simp)
    exact ih (crcByte_lt h₁ ha) (crcByte_lt h₂ ha)
      (fun b hb => hl b (by simp [hb])) (crcByte_inj_state h₁ h₂ ha hne)

/-- Changing one byte of the input changes the CRC-32. -/
theorem crc32_ne_of_byte_ne {u v : List Nat} {c c' : Nat}
    (hu : ∀ b ∈ u, b < 256) (hv : ∀ b ∈ v, b < 256)
    (hc : c < 256) (hc' : c' < 256) (hne : c ≠ c') :
    crc32 (u ++ c :: v) ≠ crc32 (u ++ c' :: v) := by
  unfold crc32
  have hs : crcFold 0xFFFFFFFF u < 2 ^ 32 := crcFold_lt (by norm_num) hu
  have hmid : crcByte (crcFold 0xFFFFFFFF u) c ≠ crcByte (crcFold 0xFFFFFFFF u) c' :=
    crcByte_inj_byte hs (by omega) (by omega) hne
  have htail : crcFold (crcByte (crcFold 0xFFFFFFFF u) c) v ≠
      crcFold (crcByte (crcFold 0xFFFFFFFF u) c') v :=
    crcFold_inj_state (crcByte_lt hs hc) (crcByte_lt hs hc') hv hmid
  intro h
  apply htail
  have := congrArg (fun x => x ^^^ 0xFFFFFFFF) h
  simp only at this
  rw [Nat.xor_assoc, Nat.xor_assoc] at this
  simpa [crcFold, List.foldl_append] using this

/-! ## Request encoders (`BaseKafka._fetch_request` etc.) -/

/-- Request type codes (`PRODUCE_REQUEST` … `OFFSETS_REQUEST`). -/
def PRODUCE_REQUEST : Nat := 0

def FETCH_REQUEST : Nat := 1

def OFFSETS_REQUEST : Nat := 4

def MAGIC_BYTE : Nat := 0

/-! The `Lengths` field-width constants of `base.py`. -/

namespace Lengths

def ERROR_CODE : Nat := 2
def RESPONSE_SIZE : Nat := 4
def REQUEST_TYPE : Nat := 2
def TOPIC_LENGTH : Nat := 2
def PARTITION : Nat := 4
def OFFSET : Nat := 8
def OFFSET_COUNT : Nat := 4
def MAX_NUM_OFFSETS : Nat := 4
def MAX_REQUEST_SIZE : Nat := 4
def TIME_VAL : Nat := 8
def MESSAGE_LENGTH : Nat := 4
def MAGIC : Nat := 1
def CHECKSUM : Nat := 4
def MESSAGE_HEADER : Nat := MESSAGE_LENGTH + MAGIC + CHECKSUM

end Lengths

/-- Model of `BaseKafka._fetch_request(topic, offset, partition, max_size)`:
returns `(bin_request_size, bin_request)` where `bin_request` is
`struct.pack('>HH%dsIQI', FETCH_REQUEST, topic_length, topic, partition,
offset, max_size)` and `bin_request_size` is `struct.pack('>I', request_size)`
with `request_size` the sum of the `Lengths` field widths. -/
def fetch_request (topic : List Nat) (offset : Nat) (partition : Nat)
    (max_size : Nat) : List Nat × List Nat :=
  let topic_length := topic.length
  let request_size :=
    Lengths.REQUEST_TYPE + Lengths.TOPIC_LENGTH + topic_length +
      Lengths.PARTITION + Lengths.OFFSET + Lengths.MAX_REQUEST_SIZE
  (beEnc 4 request_size,
    beEnc 2 FETCH_REQUEST ++ beEnc 2 topic_length ++ topic ++
      beEnc 4 partition ++ beEnc 8 offset ++ beEnc 4 max_size)

/-- The byte string `"orders"` (UTF-8). -/
def ordersTopic : List Nat := [0x6F, 0x72, 0x64, 0x65, 0x72, 0x73]

/-- C1: for every topic, offset, partition and maxSize (within the widths
accepted by `struct.pack`), `_fetch_request` produces a body laid out as
request-type(2) + topic-length(2) + topic + partition(4) + offset(8) +
maxSize(4) in big-endian, and a 4-byte size prefix equal to the body
length; in particular `encodeFetch("orders", offset=42, partition=0,
maxSize=1048576)` produces exactly the body bytes
`00 01 00 06 6F 72 64 65 72 73 00 00 00 00 00 00 00 00 00 00 00 2A 00 10 00 00`. -/
theorem fetch_request_layout (topic : List Nat) (offset partition max_size : Nat)
    (ht : topic.length < 2 ^ 16) (hp : partition < 2 ^ 32)
    (ho : offset < 2 ^ 64) (hm : max_size < 2 ^ 32) :
    (fetch_request topic offset partition max_size).2 =
      beEnc 2 FETCH_REQUEST ++ beEnc 2 topic.length ++ topic ++
        beEnc 4 partition ++ beEnc 8 offset ++ beEnc 4 max_size ∧
    (fetch_request topic offset partition max_size).1 =
      beEnc 4 (fetch_request topic offset partition max_size).2.length ∧
    fetch_request ordersTopic 42 0 1048576 =
      (beEnc 4 26,
       [0x00, 0x01, 0x00, 0x06, 0x6F, 0x72, 0x64, 0x65, 0x72, 0x73,
        0x00, 0x00, 0x00, 0x00,
        0x00, 0x00, 0x00, 0x00, 0x00, 0x00, 0x00, 0x2A,
        0x00, 0x10, 0x00, 0x00]) := by
  refine ⟨rfl, ?_, by decide⟩
  show beEnc 4 (Lengths.REQUEST_TYPE + Lengths.TOPIC_LENGTH + topic.length +
      Lengths.PARTITION + Lengths.OFFSET + Lengths.MAX_REQUEST_SIZE) = _
  congr 1
  simp [fetch_request, Lengths.REQUEST_TYPE, Lengths.TOPIC_LENGTH,
    Lengths.PARTITION, Lengths.OFFSET, Lengths.MAX_REQUEST_SIZE]
  omega

/-- Witness for C1 at the spec's concrete example. -/
theorem fetch_request_layout_witness :
    (fetch_request ordersTopic 42 0 1048576).1 =
      beEnc 4 (fetch_request ordersTopic 42 0 1048576).2.length :=
  (fetch_request_layout ordersTopic 42 0 1048576 (by decide) (by decide)
    (by decide) (by decide)).2.1

/-! ## Produce-request encoding (`BaseKafka._produce_request`) -/

/-- One encoded message: `struct.pack('>Bi%ds', MAGIC_BYTE,
compute_checksum(message), message)`. -/
def encode_message (message : List Nat) : List Nat :=
  [MAGIC_BYTE] ++ packInt32 (compute_checksum message) ++ message

/-- One entry of the produce message set: `struct.pack('>i%ds',
message_size, encoded_message)` where `message_size` is the encoded
message's length. -/
def message_set_entry (message : List Nat) : List Nat :=
  packInt32 ((encode_message message).length : Int) ++ encode_message message

/-- The message-set body built by `_produce_request`: the concatenation of
the length-prefixed encoded messages. -/
def produce_message_set : List (List Nat) → List Nat
  | [] => []
  | m :: ms => message_set_entry m ++ produce_message_set ms

/-- The full produce request: `struct.pack('>HH%dsII%ds', PRODUCE_REQUEST,
len(topic), topic, partition, len(message_set), message_set)`, with a
4-byte total-size prefix. -/
def produce_request (topic : List Nat) (messages : List (List Nat))
    (partition : Nat) : List Nat :=
  let message_set := produce_message_set messages
  let data := beEnc 2 PRODUCE_REQUEST ++ beEnc 2 topic.length ++ topic ++
    beEnc 4 partition ++ beEnc 4 message_set.length ++ message_set
  beEnc 4 data.length ++ data

/-! ## Message-set parsing (`BaseKafka._parse_message_set`)

The Python generator walks a `StringIO` buffer.  We model the buffer as the
list of not-yet-consumed bytes together with `pos`, the value
`message_buffer.tell()` would report at the top of the loop (when the
buffer is the response buffer handed over by `_read_response`, parsing
starts at `pos = 2`, just past the 2-byte error code).  A `cStringIO`
`read(n)` with `n ≥ 0` returns at most `n` bytes; with `n < 0` (which
happens when a decoded message length is below 5) it returns the whole
rest of the buffer.

Python exceptions never escape the generator (`except: log` plus
`finally: close()`), so the model is a total function returning the list
of records the generator yields. -/

/-- One iteration of the `_parse_message_set` loop on the unread bytes:
`none` means the loop `break`s (end of batch / truncation / short payload
with `self.include_corrupt` unset); `some (payload, corrupt, rest)` means
a record is yielded and parsing continues on `rest`.

`self_include_corrupt` is the *constructor* flag `self.include_corrupt`
consulted by the short-payload check (line 221 of `base.py`). -/
def readMessage (self_include_corrupt : Bool) (buf : List Nat) :
    Option (List Nat × Bool × List Nat) :=
  if buf.length < 4 then none
  else
    let message_length := beDec (buf.take 4)
    let rest₁ := buf.drop 4
    if rest₁.length < 1 then none
    else
      let magic := rest₁.headD 0
      let rest₂ := rest₁.drop 1
      if rest₂.length < 4 then none
      else
        let checksum := signed32 (beDec (rest₂.take 4))
        let rest₃ := rest₂.drop 4
        let payload_length : Int := (message_length : Int) - 5
        let payload := if payload_length < 0 then rest₃
          else rest₃.take payload_length.toNat
        let rest₄ := if payload_length < 0 then ([] : List Nat)
          else rest₃.drop payload_length.toNat
        if (payload.length : Int) < payload_length ∧ self_include_corrupt = false
        then none
        else some (payload,
          decide (magic ≠ MAGIC_BYTE ∨ checksum ≠ compute_checksum payload),
          rest₄)

theorem readMessage_rest_lt {si : Bool} {buf payload : List Nat} {corrupt : Bool}
    {rest : List Nat} (h : readMessage si buf = some (payload, corrupt, rest)) :
    rest.length < buf.length := by
  unfold readMessage at h
  dsimp only at h
  split at h
  · exact absurd h (by simp)
  split at h
  · exact absurd h (by simp)
  split at h
  · exact absurd h (by simp)
  rename_i hb4 hb5 hb9
  have hblen : 9 ≤ buf.length := by
    simp only [List.length_drop] at hb9
    omega
  split at h
  · split at h
    · exact absurd h (by simp)
    simp only [Option.some.injEq, Prod.mk.injEq] at h
    obtain ⟨-, -, hrest⟩ := h
    subst hrest
    simp only [List.length_nil]
    omega
  · split at h
    · exact absurd h (by simp)
    simp only [Option.some.injEq, Prod.mk.injEq] at h
    obtain ⟨-, -, hrest⟩ := h
    subst hrest
    simp only [List.length_drop]
    omega

/-- The records emitted by `_parse_message_set`: each is
`(offset, payload, corrupt)`, where `offset = start_offset +
message_buffer.tell() - Lengths.ERROR_CODE` at the top of the iteration.
The `include_corrupt` *argument* of the call only selects whether the
`corrupt` component is part of the yielded tuple (see
`parse_message_set`); it does not change which records are produced. -/
def parseCore (si : Bool) (start_offset : Int) (pos : Nat) (buf : List Nat) :
    List (Int × List Nat × Bool) :=
  match h : readMessage si buf with
  | none => []
  | some (payload, corrupt, rest) =>
      (start_offset + (pos : Int) - 2, payload, corrupt) ::
        parseCore si start_offset (pos + 9 + payload.length) rest
termination_by buf.length
decreasing_by exact readMessage_rest_lt h

/-- Model of `BaseKafka._parse_message_set(start_offset, message_buffer,
include_corrupt)` on an instance whose constructor flag is
`self_include_corrupt`: yields `(offset, payload, corrupt)` triples when
the `include_corrupt` argument is set and `(offset, payload)` pairs
(here: `corrupt = none`) otherwise. -/
def parse_message_set (self_include_corrupt include_corrupt : Bool)
    (start_offset : Int) (pos : Nat) (buf : List Nat) :
    List (Int × List Nat × Option Bool) :=
  (parseCore self_include_corrupt start_offset pos buf).map
    fun r => (r.1, r.2.1, if include_corrupt then some r.2.2 else none)

/-- A message-set entry with an explicitly chosen declared length:
4-byte length, 1-byte magic, 4-byte checksum, payload bytes. -/
def raw_message (declared : Nat) (magic : Nat) (ck : Nat)
    (payload : List Nat) : List Nat :=
  beEnc 4 declared ++ [magic] ++ beEnc 4 ck ++ payload

/-- A complete (untruncated) message-set entry: the declared length is
`5 + payload.length`, as written by the produce encoder. -/
def message_bytes (magic : Nat) (ck : Nat) (payload : List Nat) : List Nat :=
  raw_message (5 + payload.length) magic ck payload

/-- A buffer of concatenated complete messages, given as
`(magic, checksum, payload)` triples. -/
def msgSetBytes : List (Nat × Nat × List Nat) → List Nat
  | [] => []
  | (mg, ck, p) :: ms => message_bytes mg ck p ++ msgSetBytes ms

/-- The records `_parse_message_set` yields for a buffer of complete
messages: one per message, in order, with offsets advancing by
`payload length + 9`. -/
def recordsOf (start_offset : Int) : Nat → List (Nat × Nat × List Nat) →
    List (Int × List Nat × Bool)
  | _, [] => []
  | pos, (mg, ck, p) :: ms =>
      (start_offset + (pos : Int) - 2, p,
        decide (mg ≠ MAGIC_BYTE ∨ signed32 ck ≠ compute_checksum p)) ::
        recordsOf start_offset (pos + 9 + p.length) ms

/-! ## Parser step lemmas -/

theorem readMessage_of_short {si : Bool} {buf : List Nat} (h : buf.length ≤ 8) :
    readMessage si buf = none := by
  unfold readMessage
  dsimp only
  split
  · rfl
  split
  · rfl
  split
  · rfl
  rename_i h4 h5 h9
  exfalso
  simp only [List.length_drop] at h9
  omega

theorem readMessage_complete {si : Bool} {mg ck : Nat} {p rest : List Nat}
    (hlen : 5 + p.length < 2 ^ 32) (hck : ck < 2 ^ 32) :
    readMessage si (message_bytes mg ck p ++ rest) =
      some (p, decide (mg ≠ MAGIC_BYTE ∨ signed32 ck ≠ compute_checksum p),
        rest) := by
  rw [show message_bytes mg ck p ++ rest =
      beEnc 4 (5 + p.length) ++ ([mg] ++ (beEnc 4 ck ++ (p ++ rest))) by
    simp [message_bytes, raw_message]]
  unfold readMessage
  dsimp only
  rw [if_neg (by simp)]
  rw [List.take_left' (beEnc_length 4 _), List.drop_left' (beEnc_length 4 _)]
  rw [if_neg (by simp)]
  rw [show ([mg] ++ (beEnc 4 ck ++ (p ++ rest))).headD 0 = mg from rfl]
  rw [show ([mg] ++ (beEnc 4 ck ++ (p ++ rest))).drop 1 = beEnc 4 ck ++ (p ++ rest)
    from rfl]
  rw [if_neg (by simp)]
  rw [List.take_left' (beEnc_length 4 _), List.drop_left' (beEnc_length 4 _)]
  rw [beDec_beEnc hlen, beDec_beEnc hck]
  rw [show ((5 + p.length : Nat) : Int) - 5 = (p.length : Int) by push_cast; ring]
  simp only [if_neg (show ¬((p.length : Int) < 0) by omega)]
  rw [Int.toNat_natCast]
  rw [List.take_left, List.drop_left]
  rw [if_neg (by simp)]

theorem readMessage_short_payload {si : Bool} {mg ck declared : Nat}
    {sp : List Nat} (hd : 5 + declared < 2 ^ 32) (hck : ck < 2 ^ 32)
    (hshort : sp.length < declared) :
    readMessage si (raw_message (5 + declared) mg ck sp) =
      if si then
        some (sp, decide (mg ≠ MAGIC_BYTE ∨ signed32 ck ≠ compute_checksum sp),
          ([] : List Nat))
      else none := by
  rw [show raw_message (5 + declared) mg ck sp =
      beEnc 4 (5 + declared) ++ ([mg] ++ (beEnc 4 ck ++ sp)) by
    simp [raw_message]]
  unfold readMessage
  dsimp only
  rw [if_neg (by simp)]
  rw [List.take_left' (beEnc_length 4 _), List.drop_left' (beEnc_length 4 _)]
  rw [if_neg (by simp)]
  rw [show ([mg] ++ (beEnc 4 ck ++ sp)).headD 0 = mg from rfl]
  rw [show ([mg] ++ (beEnc 4 ck ++ sp)).drop 1 = beEnc 4 ck ++ sp from rfl]
  rw [if_neg (by simp)]
  rw [List.take_left' (beEnc_length 4 _), List.drop_left' (beEnc_length 4 _)]
  rw [beDec_beEnc hd, beDec_beEnc hck]
  rw [show ((5 + declared : Nat) : Int) - 5 = (declared : Int) by push_cast; ring]
  simp only [if_neg (show ¬((declared : Int) < 0) by omega)]
  rw [Int.toNat_natCast]
  rw [List.take_of_length_le (by omega), List.drop_eq_nil_of_le (by omega)]
  cases si with
  | false =>
    rw [if_pos (show ((sp.length : Int) < (declared : Int) ∧ false = false) from
      ⟨by exact_mod_cast hshort, rfl⟩)]
    rfl
  | true =>
    rw [if_neg (show ¬((sp.length : Int) < (declared : Int) ∧ true = false) from
      fun hc => by cases hc.2)]
    rfl

theorem parseCore_eq_nil {si : Bool} {so : Int} {pos : Nat} {buf : List Nat}
    (h : readMessage si buf = none) : parseCore si so pos buf = [] := by
  rw [parseCore]
  split
  · rfl
  · rename_i heq
    rw [h] at heq
    cases heq

theorem parseCore_eq_cons {si : Bool} {so : Int} {pos : Nat}
    {buf p : List Nat} {c : Bool} {rest : List Nat}
    (h : readMessage si buf = some (p, c, rest)) :
    parseCore si so pos buf =
      (so + (pos : Int) - 2, p, c) ::
        parseCore si so (pos + 9 + p.length) rest := by
  rw [parseCore]
  split
  · rename_i heq
    rw [h] at heq
    cases heq
  · rename_i p' c' rest' heq
    rw [h] at heq
    cases heq
    rfl

/-! ## Parsing concatenations of complete messages -/

theorem encode_message_length (m : List Nat) :
    (encode_message m).length = 5 + m.length := by
  simp [encode_message, packInt32]
  omega

theorem packInt32_natCast {n : Nat} (h : n < 2 ^ 32) :
    packInt32 ((n : Nat) : Int) = beEnc 4 n := by
  unfold packInt32
  congr 1
  omega

theorem message_set_entry_eq {m : List Nat} (hm : ∀ b ∈ m, b < 256)
    (hl : 5 + m.length < 2 ^ 32) :
    message_set_entry m = message_bytes MAGIC_BYTE (crc32 m) m := by
  have h1 : packInt32 ((encode_message m).length : Int) = beEnc 4 (5 + m.length) := by
    rw [encode_message_length]
    exact packInt32_natCast hl
  unfold message_set_entry
  rw [h1]
  unfold message_bytes raw_message encode_message compute_checksum
  rw [packInt32_signed32 (crc32_lt hm)]
  simp

theorem produce_message_set_eq {msgs : List (List Nat)}
    (h : ∀ m ∈ msgs, (∀ b ∈ m, b < 256) ∧ 5 + m.length < 2 ^ 32) :
    produce_message_set msgs =
      msgSetBytes (msgs.map fun m => (MAGIC_BYTE, crc32 m, m)) := by
  induction msgs with
  | nil => rfl
  | cons m ms ih =>
    rw [produce_message_set, List.map_cons, msgSetBytes,
      message_set_entry_eq (h m (by simp)).1 (h m (by simp)).2,
      ih fun x hx => h x (by simp [hx])]

/-- Parsing a buffer of complete messages followed by at most 8 further
bytes (a header truncated inside the 4-byte length, the magic byte or the
4-byte checksum, or nothing at all) yields exactly one record per complete
message and stops at the truncated header. -/
theorem parseCore_msgSetBytes {si : Bool} {so : Int} :
    ∀ (msgs : List (Nat × Nat × List Nat)) (pos : Nat) (tail : List Nat),
      (∀ t ∈ msgs, 5 + t.2.2.length < 2 ^ 32 ∧ t.2.1 < 2 ^ 32) →
      tail.length ≤ 8 →
      parseCore si so pos (msgSetBytes msgs ++ tail) = recordsOf so pos msgs := by
  intro msgs
  induction msgs with
  | nil =>
    intro pos tail _ htail
    rw [msgSetBytes, List.nil_append,
      parseCore_eq_nil (readMessage_of_short htail)]
    rfl
  | cons t ms ih =>
    intro pos tail h htail
    obtain ⟨mg, ck, p⟩ := t
    have hp := h (mg, ck, p) (by simp)
    rw [msgSetBytes, List.append_assoc,
      parseCore_eq_cons (readMessage_complete hp.1 hp.2),
      recordsOf, ih _ _ (fun x hx => h x (by simp [hx])) htail]

/-- Specialisation of `parseCore_msgSetBytes` with no trailing bytes. -/
theorem parseCore_msgSet {si : Bool} {so : Int}
    (msgs : List (Nat × Nat × List Nat)) (pos : Nat)
    (h : ∀ t ∈ msgs, 5 + t.2.2.length < 2 ^ 32 ∧ t.2.1 < 2 ^ 32) :
    parseCore si so pos (msgSetBytes msgs) = recordsOf so pos msgs := by
  have hx : parseCore si so pos (msgSetBytes msgs ++ []) = recordsOf so pos msgs :=
    parseCore_msgSetBytes msgs pos [] h (by simp)
  simpa using hx

theorem recordsOf_map_payload (so : Int) :
    ∀ (pos : Nat) (msgs : List (Nat × Nat × List Nat)),
      (recordsOf so pos msgs).map (fun r => r.2.1) = msgs.map fun t => t.2.2 := by
  intro pos msgs
  induction msgs generalizing pos with
  | nil => rfl
  | cons t ms ih =>
    obtain ⟨mg, ck, p⟩ := t
    rw [recordsOf, List.map_cons, List.map_cons, ih]

theorem recordsOf_head {so : Int} {pos : Nat}
    {msgs : List (Nat × Nat × List Nat)} {r : Int × List Nat × Bool}
    (h : (recordsOf so pos msgs).head? = some r) : r.1 = so + (pos : Int) - 2 := by
  match msgs with
  | [] => cases h
  | (mg, ck, p) :: ms =>
    rw [recordsOf] at h
    simp only [List.head?_cons, Option.some.injEq] at h
    rw [← h]

theorem recordsOf_chain (so : Int) :
    ∀ (pos : Nat) (msgs : List (Nat × Nat × List Nat)),
      List.Chain' (fun a b => a.1 < b.1 ∧ b.1 = a.1 + (a.2.1.length : Int) + 9)
        (recordsOf so pos msgs) := by
  intro pos msgs
  induction msgs generalizing pos with
  | nil => simp [recordsOf]
  | cons t ms ih =>
    obtain ⟨mg, ck, p⟩ := t
    rw [recordsOf]
    refine List.chain'_cons'.2 ⟨?_, ih _⟩
    intro b hb
    have hb1 := recordsOf_head hb
    constructor
    · rw [hb1]
      push_cast
      omega
    · rw [hb1]
      push_cast
      ring

theorem recordsOf_produce_flags (so : Int) :
    ∀ (pos : Nat) (msgs : List (List Nat)),
      ∀ r ∈ recordsOf so pos (msgs.map fun m => (MAGIC_BYTE, crc32 m, m)),
        r.2.2 = false := by
  intro pos msgs
  induction msgs generalizing pos with
  | nil => simp [recordsOf]
  | cons m ms ih =>
    intro r hr
    rw [List.map_cons, recordsOf] at hr
    rcases List.mem_cons.1 hr with hr | hr
    · rw [hr]
      simp [compute_checksum]
    · exact ih _ r hr

/-- C2: encoding payloads with the produce-request message-set encoder and
parsing the bytes back through `_parse_message_set` (with the
`include_corrupt` argument enabled) yields exactly one record per payload,
in order, each carrying the original payload and `corrupt = false`.
The bound `5 + length < 2^31` is the range `struct.pack('>i', message_size)`
accepts. -/
theorem produce_parse_round_trip (si : Bool) (so : Int) (pos : Nat)
    (msgs : List (List Nat))
    (h : ∀ m ∈ msgs, (∀ b ∈ m, b < 256) ∧ 5 + m.length < 2 ^ 31) :
    (parse_message_set si true so pos (produce_message_set msgs)).map
        (fun r => r.2.1) = msgs ∧
      ∀ r ∈ parse_message_set si true so pos (produce_message_set msgs),
        r.2.2 = some false := by
  have h' : ∀ m ∈ msgs, (∀ b ∈ m, b < 256) ∧ 5 + m.length < 2 ^ 32 := by
    intro m hm
    exact ⟨(h m hm).1, by have := (h m hm).2; omega⟩
  have hbounds : ∀ t ∈ msgs.map fun m => (MAGIC_BYTE, crc32 m, m),
      5 + t.2.2.length < 2 ^ 32 ∧ t.2.1 < 2 ^ 32 := by
    intro t ht
    simp only [List.mem_map] at ht
    obtain ⟨m, hm, rfl⟩ := ht
    exact ⟨(h' m hm).2, crc32_lt (h' m hm).1⟩
  unfold parse_message_set
  rw [produce_message_set_eq h', parseCore_msgSet _ pos hbounds]
  constructor
  · rw [List.map_map]
    have hmp := recordsOf_map_payload so pos (msgs.map fun m => (MAGIC_BYTE, crc32 m, m))
    rw [List.map_map] at hmp
    simp only [Function.comp_def] at hmp ⊢
    simpa using hmp
  · intro r hr
    simp only [List.mem_map] at hr
    obtain ⟨x, hx, rfl⟩ := hr
    simp [recordsOf_produce_flags so pos msgs x hx]

/-- C3: for a buffer of N complete concatenated messages, the offsets the
parser emits are strictly increasing, with
`offset[i+1] = offset[i] + payloadLen[i] + 9`, and the emitted payloads are
exactly the N message payloads in order. -/
theorem parse_offsets_monotonic (si : Bool) (so : Int) (pos : Nat)
    (msgs : List (Nat × Nat × List Nat))
    (h : ∀ t ∈ msgs, 5 + t.2.2.length < 2 ^ 32 ∧ t.2.1 < 2 ^ 32) :
    ((parseCore si so pos (msgSetBytes msgs)).map fun r => r.2.1) =
        (msgs.map fun t => t.2.2) ∧
      List.Chain' (fun a b => a.1 < b.1 ∧ b.1 = a.1 + (a.2.1.length : Int) + 9)
        (parseCore si so pos (msgSetBytes msgs)) := by
  rw [parseCore_msgSet msgs pos h]
  exact ⟨recordsOf_map_payload so pos msgs, recordsOf_chain so pos msgs⟩

/-- C4: the parser yields the empty sequence on an empty buffer, and on a
buffer truncated anywhere inside a trailing message header (1–8 bytes of
the 4-byte length / 1-byte magic / 4-byte checksum) yields exactly the
complete messages preceding the truncation point.  The model is a total
function: the Python generator catches every exception internally, so no
error reaches the caller. -/
theorem parse_truncated_header (si ic : Bool) (so : Int) (pos : Nat)
    (msgs : List (Nat × Nat × List Nat)) (tail : List Nat)
    (h : ∀ t ∈ msgs, 5 + t.2.2.length < 2 ^ 32 ∧ t.2.1 < 2 ^ 32)
    (htail : tail.length ≤ 8) :
    parse_message_set si ic so pos [] = [] ∧
      parseCore si so pos (msgSetBytes msgs ++ tail) = recordsOf so pos msgs := by
  constructor
  · rw [parse_message_set, parseCore_eq_nil (readMessage_of_short (by simp))]
    rfl
  · exact parseCore_msgSetBytes msgs pos tail h htail

/-- Witness for C2 on two concrete payloads. -/
theorem produce_parse_round_trip_witness :
    (parse_message_set false true 0 2 (produce_message_set [[104, 105], [10]])).map
        (fun r => r.2.1) = [[104, 105], [10]] :=
  (produce_parse_round_trip false 0 2 [[104, 105], [10]] (by decide)).1

/-- Witness for C3 on two concrete messages starting at offset 100. -/
theorem parse_offsets_monotonic_witness :
    List.Chain' (fun a b => a.1 < b.1 ∧ b.1 = a.1 + (a.2.1.length : Int) + 9)
      (parseCore false 100 2 (msgSetBytes [(0, 0, [1, 2]), (0, 0, [3])])) :=
  (parse_offsets_monotonic false 100 2 [(0, 0, [1, 2]), (0, 0, [3])] (by decide)).2

/-- Witness for C4: one complete message followed by 3 stray header bytes. -/
theorem parse_truncated_header_witness :
    parseCore false 0 2 (msgSetBytes [(0, 0, [1])] ++ [0, 0, 0]) =
      recordsOf 0 2 [(0, 0, [1])] :=
  (parse_truncated_header false false 0 2 [(0, 0, [1])] [0, 0, 0]
    (by decide) (by decide)).2

/-! ## Short trailing payloads (C5)

Line 221 of `base.py` reads `if len(payload) < payload_length and not
self.include_corrupt: break` — the flag consulted is the **constructor**
attribute `self.include_corrupt`, not the `include_corrupt` argument of
the `fetch`/`_parse_message_set` call. -/

theorem message_bytes_length (mg ck : Nat) (p : List Nat) :
    (message_bytes mg ck p).length = 9 + p.length := by
  simp [message_bytes, raw_message]
  omega

theorem msgSetBytes_cons_length (mg ck : Nat) (p : List Nat)
    (ms : List (Nat × Nat × List Nat)) :
    (msgSetBytes ((mg, ck, p) :: ms)).length =
      9 + p.length + (msgSetBytes ms).length := by
  rw [msgSetBytes, List.length_append, message_bytes_length]

theorem parseCore_append_short (si : Bool) (so : Int) (mg ck declared : Nat)
    (sp : List Nat) (hd : 5 + declared < 2 ^ 32) (hck : ck < 2 ^ 32)
    (hshort : sp.length < declared) :
    ∀ (msgs : List (Nat × Nat × List Nat)) (pos : Nat),
      (∀ t ∈ msgs, 5 + t.2.2.length < 2 ^ 32 ∧ t.2.1 < 2 ^ 32) →
      parseCore si so pos (msgSetBytes msgs ++ raw_message (5 + declared) mg ck sp) =
        recordsOf so pos msgs ++
          (if si then
            [(so + ((pos + (msgSetBytes msgs).length : Nat) : Int) - 2, sp,
              decide (mg ≠ MAGIC_BYTE ∨ signed32 ck ≠ compute_checksum sp))]
          else []) := by
  intro msgs
  induction msgs with
  | nil =>
    intro pos _
    rw [msgSetBytes, List.nil_append, recordsOf, List.nil_append]
    cases si with
    | false =>
      rw [parseCore_eq_nil (by rw [readMessage_short_payload hd hck hshort]; rfl)]
      rfl
    | true =>
      rw [parseCore_eq_cons (by rw [readMessage_short_payload hd hck hshort]; rfl)]
      rw [parseCore_eq_nil (readMessage_of_short (by simp))]
      simp [List.length_nil]
  | cons t ms ih =>
    intro pos h
    obtain ⟨mg', ck', p⟩ := t
    have hp := h (mg', ck', p) (by simp)
    rw [msgSetBytes, List.append_assoc,
      parseCore_eq_cons (readMessage_complete hp.1 hp.2),
      ih (pos + 9 + p.length) (fun x hx => h x (by simp [hx])),
      recordsOf]
    rw [List.length_append, message_bytes_length]
    rw [show pos + (9 + p.length + (msgSetBytes ms).length) =
      pos + 9 + p.length + (msgSetBytes ms).length by omega]
    rfl

/-- C5 counterexample: a client constructed with the default
`include_corrupt=False` and a fetch call with `include_corrupt=True`.
The buffer holds a single message whose declared length is 10
(payload length 5) but whose payload has only 2 bytes.  The claim says the
fetch call's enabled corruption-inclusion argument makes the parser emit
the short message with its corruption flag; the code instead consults the
constructor flag and emits nothing. -/
theorem short_payload_fetch_flag_ignored :
    parse_message_set false true 0 2 (raw_message 10 0 0 [1, 2]) = [] := by
  unfold parse_message_set
  rw [parseCore_eq_nil (by decide)]
  rfl

/-- C5 (amended): tolerance of a short trailing payload is governed by the
client's constructor flag `self.include_corrupt`, not by the fetch call's
argument.  When the constructor flag is unset the parser silently
terminates before emitting the short message; when it is set, the short
payload is tolerated and the record is emitted with its corruption
flag. -/
theorem short_payload_policy (so : Int) (pos : Nat)
    (msgs : List (Nat × Nat × List Nat)) (mg ck declared : Nat) (sp : List Nat)
    (h : ∀ t ∈ msgs, 5 + t.2.2.length < 2 ^ 32 ∧ t.2.1 < 2 ^ 32)
    (hd : 5 + declared < 2 ^ 32) (hck : ck < 2 ^ 32)
    (hshort : sp.length < declared) :
    parseCore false so pos (msgSetBytes msgs ++ raw_message (5 + declared) mg ck sp) =
        recordsOf so pos msgs ∧
      parseCore true so pos (msgSetBytes msgs ++ raw_message (5 + declared) mg ck sp) =
        recordsOf so pos msgs ++
          [(so + ((pos + (msgSetBytes msgs).length : Nat) : Int) - 2, sp,
            decide (mg ≠ MAGIC_BYTE ∨ signed32 ck ≠ compute_checksum sp))] := by
  constructor
  · have hx := parseCore_append_short false so mg ck declared sp hd hck hshort msgs pos h
    simpa using hx
  · have hx := parseCore_append_short true so mg ck declared sp hd hck hshort msgs pos h
    simpa using hx

/-- Witness for C5 (amended) on a concrete short message. -/
theorem short_payload_policy_witness :
    parseCore false 0 2 (msgSetBytes [] ++ raw_message (5 + 5) 0 0 [1, 2]) =
      recordsOf 0 2 [] :=
  (short_payload_policy 0 2 [] 0 0 5 [1, 2] (by decide) (by decide) (by decide)
    (by decide)).1

/-! ## Checksum semantics and bit-flip detection (C9) -/

theorem list_set_decomp {l : List Nat} {i : Nat} (h : i < l.length) (v : Nat) :
    l.set i v = l.take i ++ v :: l.drop (i + 1) := by
  rw [List.set_eq_take_append_cons_drop, if_pos h]

theorem list_self_decomp {l : List Nat} {i : Nat} (h : i < l.length) :
    l = l.take i ++ l.getD i 0 :: l.drop (i + 1) := by
  rw [List.getD_eq_getElem l 0 h]
  rw [← List.drop_eq_getElem_cons h, List.take_append_drop]

/-- Flipping bit `k` of byte `i` of the input changes the CRC-32. -/
theorem crc32_set_ne {p : List Nat} (hp : ∀ b ∈ p, b < 256) {i k : Nat}
    (hi : i < p.length) (hk : k < 8) :
    crc32 (p.set i (p.getD i 0 ^^^ 2 ^ k)) ≠ crc32 p := by
  have hc : p.getD i 0 < 256 := by
    rw [List.getD_eq_getElem p 0 hi]
    exact hp _ (List.getElem_mem hi)
  have h2k : (2 : Nat) ^ k < 256 := by
    calc (2 : Nat) ^ k < 2 ^ 8 := Nat.pow_lt_pow_right (by omega) hk
      _ = 256 := by norm_num
  have hc' : p.getD i 0 ^^^ 2 ^ k < 256 := by
    have := Nat.xor_lt_two_pow (by omega : p.getD i 0 < 2 ^ 8)
      (by omega : 2 ^ k < 2 ^ 8)
    omega
  have hne : p.getD i 0 ^^^ 2 ^ k ≠ p.getD i 0 := by
    intro h
    have hbit := congrArg (fun x => Nat.testBit x k) h
    simp only [Nat.testBit_xor, Nat.testBit_two_pow_self] at hbit
    cases hx : Nat.testBit (p.getD i 0) k <;> rw [hx] at hbit <;> simp at hbit
  rw [list_set_decomp hi]
  conv_rhs => rw [list_self_decomp hi]
  exact crc32_ne_of_byte_ne (fun b hb => hp b (List.mem_of_mem_take hb))
    (fun b hb => hp b (List.mem_of_mem_drop hb)) hc' hc hne

/-- C9 counterexample: `compute_checksum` does *not* return the CRC-32 as
a uint32.  For the payload `"a"` (byte `0x61`) the standard CRC-32 is
`0xE8B7BE43 = 3904355907`, but Python 2's `binascii.crc32` — and hence
`compute_checksum` — returns the two's-complement signed value
`-390611389`. -/
theorem compute_checksum_not_uint32 :
    compute_checksum [0x61] ≠ ((crc32 [0x61] : Nat) : Int) ∧
      crc32 [0x61] = 0xE8B7BE43 ∧ compute_checksum [0x61] = -390611389 := by
  refine ⟨?_, by decide, by decide⟩
  decide

/-- C9 (amended): `compute_checksum(payload)` is the standard CRC-32 of the
payload bytes reinterpreted as a *signed* 32-bit two's-complement integer
(equal to the CRC-32 modulo `2^32`), and for every payload differing from
the original by exactly one flipped bit, the parser's corruption flag for
the message is true. -/
theorem checksum_signed_crc32_and_bitflip (p : List Nat)
    (hp : ∀ b ∈ p, b < 256) :
    (crc32 p < 2 ^ 32 ∧
      -2 ^ 31 ≤ compute_checksum p ∧ compute_checksum p < 2 ^ 31 ∧
      compute_checksum p % (2 ^ 32 : Int) = ((crc32 p : Nat) : Int)) ∧
    ∀ i k, i < p.length → k < 8 → ∀ si (so : Int) (pos : Nat),
      5 + p.length < 2 ^ 32 →
      parseCore si so pos (message_bytes MAGIC_BYTE (crc32 p)
          (p.set i (p.getD i 0 ^^^ 2 ^ k))) =
        [(so + (pos : Int) - 2, p.set i (p.getD i 0 ^^^ 2 ^ k), true)] := by
  have hlt := crc32_lt hp
  constructor
  · refine ⟨hlt, ?_, ?_, ?_⟩ <;>
    · unfold compute_checksum signed32
      split <;> omega
  · intro i k hi hk si so pos hlen
    set p' := p.set i (p.getD i 0 ^^^ 2 ^ k) with hp'
    have hp'bytes : ∀ b ∈ p', b < 256 := by
      intro b hb
      rcases List.mem_or_eq_of_mem_set hb with hb | hb
      · exact hp b hb
      · rw [hb]
        have hc : p.getD i 0 < 256 := by
          rw [List.getD_eq_getElem p 0 hi]
          exact hp _ (List.getElem_mem hi)
        have h2k : (2 : Nat) ^ k < 256 := by
          calc (2 : Nat) ^ k < 2 ^ 8 := Nat.pow_lt_pow_right (by omega) hk
            _ = 256 := by norm_num
        have := Nat.xor_lt_two_pow (by omega : p.getD i 0 < 2 ^ 8)
          (by omega : 2 ^ k < 2 ^ 8)
        omega
    have hlen' : 5 + p'.length < 2 ^ 32 := by
      rw [hp', List.length_set]
      exact hlen
    have hne2 : signed32 (crc32 p) ≠ compute_checksum p' := by
      unfold compute_checksum
      intro h
      exact crc32_set_ne hp hi hk
        (signed32_inj hlt (crc32_lt hp'bytes) h).symm
    have hflag : decide (MAGIC_BYTE ≠ MAGIC_BYTE ∨
        signed32 (crc32 p) ≠ compute_checksum p') = true := by
      simp only [decide_eq_true_eq]
      exact Or.inr hne2
    have hbuf : readMessage si (message_bytes MAGIC_BYTE (crc32 p) p') =
        some (p',
          decide (MAGIC_BYTE ≠ MAGIC_BYTE ∨
            signed32 (crc32 p) ≠ compute_checksum p'), []) := by
      have hx := @readMessage_complete si MAGIC_BYTE (crc32 p) p' [] hlen' hlt
      rw [List.append_nil] at hx
      exact hx
    rw [parseCore_eq_cons hbuf,
      parseCore_eq_nil (readMessage_of_short (by simp)), hflag]

/-- Witness for C9 (amended): flipping the low bit of the single byte of
payload `"a"` makes the parser flag the message as corrupt. -/
theorem checksum_signed_crc32_and_bitflip_witness :
    parseCore false 0 2 (message_bytes MAGIC_BYTE (crc32 [0x61])
        (List.set [0x61] 0 (List.getD [0x61] 0 0 ^^^ 2 ^ 0))) =
      [((0 : Int) + ((2 : Nat) : Int) - 2,
        List.set [0x61] 0 (List.getD [0x61] 0 0 ^^^ 2 ^ 0), true)] :=
  (checksum_signed_crc32_and_bitflip [0x61] (by decide)).2 0 0 (by decide)
    (by decide) false 0 2 (by decide)

/-! ## Offsets responses (`BaseKafka._read_offset_response`, C10) -/

/-- The loop of `_read_offset_response`: read `count` offsets of 8 bytes
each, `struct.unpack('>Q', ...)`.  A short read makes `unpack` raise
`struct.error`, modelled as `none`. -/
def read_offset_list : Nat → List Nat → Option (List Nat)
  | 0, _ => some []
  | n + 1, d =>
    if d.length < 8 then none
    else
      match read_offset_list n (d.drop 8) with
      | some rest => some (beDec (d.take 8) :: rest)
      | none => none

/-- Model of `_read_offset_response`: a 4-byte big-endian count (`>L`), then
`count` 8-byte big-endian offsets. -/
def read_offset_response (data : List Nat) : Option (List Nat) :=
  if data.length < 4 then none
  else read_offset_list (beDec (data.take 4)) (data.drop 4)

/-- Both `Partition.earliest_offset` and `Partition.latest_offset` index the
decoded offsets list with `[0]`; `none` models the `IndexError` raised
when the server returned zero offsets. -/
def offsets_first (data : List Nat) : Option Nat :=
  (read_offset_response data).bind fun l => l[0]?

def earliest_offset (data : List Nat) : Option Nat := offsets_first data

def latest_offset (data : List Nat) : Option Nat := offsets_first data

/-- A well-formed offsets-response body carrying exactly `offs`. -/
def encode_offsets_body (offs : List Nat) : List Nat :=
  beEnc 4 offs.length ++ (offs.map (beEnc 8)).flatten

theorem read_offset_list_encode {offs : List Nat} (h : ∀ o ∈ offs, o < 2 ^ 64) :
    read_offset_list offs.length ((offs.map (beEnc 8)).flatten) = some offs := by
  induction offs with
  | nil => rfl
  | cons o os ih =>
    rw [List.length_cons, List.map_cons, List.flatten_cons, read_offset_list]
    rw [if_neg (by simp)]
    rw [List.take_left' (beEnc_length 8 o), List.drop_left' (beEnc_length 8 o)]
    rw [ih fun x hx => h x (by simp [hx])]
    rw [beDec_beEnc (show o < 256 ^ 8 by have := h o (by simp); norm_num; omega)]

/-- C10: `earliest_offset()` and `latest_offset()` return the first element
of the offsets-response list, and when the response carries zero offsets
(`count = 0`) both fail with an out-of-bounds access (`IndexError`,
modelled as `none`) rather than returning any offset value. -/
theorem offsets_first_element (offs : List Nat) (h : ∀ o ∈ offs, o < 2 ^ 64)
    (hcount : offs.length < 2 ^ 32) :
    read_offset_response (encode_offsets_body offs) = some offs ∧
      earliest_offset (encode_offsets_body offs) = offs.head? ∧
      latest_offset (encode_offsets_body offs) = offs.head? ∧
      earliest_offset (encode_offsets_body []) = none ∧
      latest_offset (encode_offsets_body []) = none := by
  have hresp : read_offset_response (encode_offsets_body offs) = some offs := by
    unfold read_offset_response encode_offsets_body
    rw [if_neg (by simp)]
    rw [List.take_left' (beEnc_length 4 _), List.drop_left' (beEnc_length 4 _)]
    rw [beDec_beEnc (show offs.length < 256 ^ 4 by norm_num; omega)]
    exact read_offset_list_encode h
  have hfirst : offsets_first (encode_offsets_body offs) = offs.head? := by
    rw [offsets_first, hresp]
    cases offs <;> simp
  refine ⟨hresp, hfirst, hfirst, ?_, ?_⟩ <;> rfl

/-- Witness for C10: a two-offset response and the empty response. -/
theorem offsets_first_element_witness :
    earliest_offset (encode_offsets_body [5, 7]) = some 5 :=
  (offsets_first_element [5, 7] (by decide) (by decide)).2.1

/-! ## The partition poller (`Partition.poll`, C6–C8)

`Partition.poll` is a generator interleaving network fetches, sleeps and
yields.  The model makes the network explicit: a `PollEnv` says what the
`i`-th fetch call at a given offset returns and what
`earliest_offset()`/`latest_offset()` resolve to; `pollStep` is one
iteration of the `while True` loop (lines 513–588 of `base.py`);
`pollRun` iterates it under a fuel bound, collecting the observable
events.  `time.sleep` is instantaneous in the model; the retry backoff
sleep (line 524) is part of a `retry` step, and the post-yield idle sleep
(lines 586–588) is folded into the successor state's `seconds_slept`. -/

/-- Outcome of one `fetch` network call: a batch of `(offset, payload)`
pairs, a connection-class failure (`ConnectionFailure`/`IOError`), or a
server `OffsetOutOfRange` error. -/
inductive FetchOutcome where
  | ok (batch : List (Int × List Nat))
  | connFail
  | offsetOutOfRange
deriving DecidableEq

/-- The environment of a poll run. -/
structure PollEnv where
  fetchAt : Nat → Int → FetchOutcome
  earliest : Int
  latest : Int

/-- The keyword arguments of `Partition.poll` the loop consults.
`poll_interval = 0` models a falsy interval (no idle sleeping). -/
structure PollParams where
  end_offset : Option Int
  poll_interval : Nat
  retry_limit : Option Nat
deriving DecidableEq

/-- Model of `Partition.PollingStatus` (minus `polling_start_time`, a wall-clock
timestamp outside the model). -/
structure PollingStatus where
  start_offset : Int
  next_offset : Option Int
  last_offset_read : Option Int
  messages_read : Nat
  bytes_read : Nat
  num_fetches : Nat
  seconds_slept : Nat
deriving DecidableEq

/-- The loop state of `Partition.poll`.  `offset` is the Python local
`offset` — `none` when the caller passed no start offset (Python `None`).
`fetch_calls` counts fetch calls made so far: the index into
`PollEnv.fetchAt`. -/
structure PollState where
  offset : Option Int
  retry_attempts : Nat
  first_loop : Bool
  last_offset_read : Option Int
  messages_read : Nat
  bytes_read : Nat
  num_fetches : Nat
  seconds_slept : Nat
  fetch_calls : Nat
deriving DecidableEq

/-- Errors that can escape `poll`.  `structError` is the `struct.error`
raised by `struct.pack('>Q', None)` when the loop fetches with
`offset = None`. -/
inductive PollError where
  | structError
  | connFailure
  | offsetOutOfRange
  | invalidOffset
deriving DecidableEq

/-- The observable effect of one iteration of the `while True` loop. -/
inductive PollStep where
  | done
  | retry (st : PollState)
  | yielded (batch : List (Int × List Nat)) (messages : List (List Nat))
      (status : PollingStatus) (st : PollState)
  | raise (e : PollError)
deriving DecidableEq

/-- Python 2's `end_offset is not None and offset > end_offset`: `None`
compares below every integer, so the comparison is `False` whenever
`offset` is `None`, and the `is not None` test guards `end_offset`. -/
def pyGTopt : Option Int → Option Int → Bool
  | some o, some e => decide (e < o)
  | _, _ => false

/-- The tail of a successful loop iteration (lines 562–588): compute
`messages`, update the counters, advance `offset` past the last message of
the batch, build the `PollingStatus`, yield, and account the post-yield
idle sleep in the successor state. -/
def pollYield (pp : PollParams) (start_offset : Int) (st : PollState)
    (batch : List (Int × List Nat)) (fetch_calls : Nat) : PollStep :=
  let messages := batch.map fun om => om.2
  let messages_read := st.messages_read + messages.length
  let bytes_read := st.bytes_read + (messages.map List.length).sum
  let num_fetches := st.num_fetches + 1
  let offsetNext := match batch.getLast? with
    | some (lo, lm) => some (lo + (lm.length : Int) + 9)
    | none => st.offset
  let lastRead := match batch.getLast? with
    | some (lo, _) => some lo
    | none => st.last_offset_read
  let slept := if pp.poll_interval ≠ 0 ∧ messages = [] then pp.poll_interval else 0
  .yielded batch messages
    { start_offset := start_offset
      next_offset := offsetNext
      last_offset_read := lastRead
      messages_read := messages_read
      bytes_read := bytes_read
      num_fetches := num_fetches
      seconds_slept := st.seconds_slept }
    { offset := offsetNext
      retry_attempts := 0
      first_loop := false
      last_offset_read := lastRead
      messages_read := messages_read
      bytes_read := bytes_read
      num_fetches := num_fetches
      seconds_slept := st.seconds_slept + slept
      fetch_calls := fetch_calls }

/-- One iteration of `Partition.poll`'s `while True` loop: the end-offset
termination check, the fetch with retry/re-raise handling, the end-offset
filter, the first-loop empty-batch validation (which makes one extra fetch
call, outside the `try` block), and the yield. -/
def pollStep (env : PollEnv) (pp : PollParams) (start_offset : Int)
    (st : PollState) : PollStep :=
  if pyGTopt st.offset pp.end_offset then .done
  else
    match st.offset with
    | none => .raise .structError
    | some o =>
      match env.fetchAt st.fetch_calls o with
      | .connFail =>
        match pp.retry_limit with
        | some rl =>
          if st.retry_attempts > rl then .raise .connFailure
          else .retry { st with
            retry_attempts := st.retry_attempts + 1
            fetch_calls := st.fetch_calls + 1 }
        | none => .retry { st with
            retry_attempts := st.retry_attempts + 1
            fetch_calls := st.fetch_calls + 1 }
      | .offsetOutOfRange => .raise .offsetOutOfRange
      | .ok batchRaw =>
        let batch := match pp.end_offset with
          | some e => batchRaw.filter fun om => decide (om.1 ≤ e)
          | none => batchRaw
        if st.first_loop ∧ batch = [] then
          if env.earliest ≤ o ∧ o < env.latest then
            match env.fetchAt (st.fetch_calls + 1) o with
            | .ok second =>
              if second = [] then .raise .invalidOffset
              else pollYield pp start_offset st batch (st.fetch_calls + 2)
            | .connFail => .raise .connFailure
            | .offsetOutOfRange => .raise .offsetOutOfRange
          else pollYield pp start_offset st batch (st.fetch_calls + 1)
        else pollYield pp start_offset st batch (st.fetch_calls + 1)

/-- An observable event of a poll run: a backoff retry (sleep + counter
increment, line 524–529) or a yielded `(status, messages)` pair. -/
inductive PollEvent where
  | retried
  | emitted (status : PollingStatus) (messages : List (List Nat))
deriving DecidableEq

inductive PollTerminal where
  | finished (st : PollState)
  | raised (e : PollError)
  | fuelOut (st : PollState)
deriving DecidableEq

/-- Run the poll loop for at most `fuel` iterations, collecting events and
how the run ended. -/
def pollRun (env : PollEnv) (pp : PollParams) (start_offset : Int) :
    Nat → PollState → List PollEvent × PollTerminal
  | 0, st => ([], .fuelOut st)
  | fuel + 1, st =>
    match pollStep env pp start_offset st with
    | .done => ([], .finished st)
    | .raise e => ([], .raised e)
    | .retry st' =>
      let r := pollRun env pp start_offset fuel st'
      (.retried :: r.1, r.2)
    | .yielded _ ms status st' =>
      let r := pollRun env pp start_offset fuel st'
      (.emitted status ms :: r.1, r.2)

/-- Line 495: `start_offset = self.latest_offset() if offset is None else
offset`. -/
def pollStartOffset (env : PollEnv) (offset : Option Int) : Int :=
  match offset with
  | none => env.latest
  | some o => o

/-- The loop state on entry to the first iteration of `poll`.  Note the
Python local `offset` keeps the value the caller passed — `None`
included: line 495 assigns `start_offset`, never `offset`. -/
def pollInitState (offset : Option Int) : PollState :=
  { offset := offset
    retry_attempts := 0
    first_loop := true
    last_offset_read := none
    messages_read := 0
    bytes_read := 0
    num_fetches := 0
    seconds_slept := 0
    fetch_calls := 0 }

/-! ## Poller lemmas -/

theorem pollYield_inv {pp : PollParams} {so : Int} {st : PollState}
    {batch : List (Int × List Nat)} {fc : Nat}
    {b : List (Int × List Nat)} {ms : List (List Nat)}
    {status : PollingStatus} {st' : PollState}
    (h : pollYield pp so st batch fc = .yielded b ms status st') :
    b = batch ∧ ms = batch.map (fun om => om.2) ∧ st'.retry_attempts = 0 := by
  unfold pollYield at h
  dsimp only at h
  injection h with h1 h2 h3 h4
  subst h1
  subst h2
  subst h4
  exact ⟨rfl, rfl, rfl⟩

theorem pollStep_yielded_inv {env : PollEnv} {pp : PollParams} {so : Int}
    {st : PollState} {b : List (Int × List Nat)} {ms : List (List Nat)}
    {status : PollingStatus} {st' : PollState}
    (h : pollStep env pp so st = .yielded b ms status st') :
    ms = b.map (fun om => om.2) ∧ st'.retry_attempts = 0 ∧
      ∃ batchRaw, b = match pp.end_offset with
        | some e => batchRaw.filter fun om => decide (om.1 ≤ e)
        | none => batchRaw := by
  unfold pollStep at h
  split at h
  · cases h
  split at h
  · cases h
  split at h
  · -- connFail
    split at h
    · split at h <;> cases h
    · cases h
  · -- offsetOutOfRange
    cases h
  · -- ok batchRaw
    rename_i batchRaw hfetch
    dsimp only at h
    split at h
    · split at h
      · split at h
        · split at h
          · cases h
          · obtain ⟨h1, h2, h3⟩ := pollYield_inv h
            exact ⟨h1 ▸ h2, h3, batchRaw, h1⟩
        · cases h
        · cases h
      · obtain ⟨h1, h2, h3⟩ := pollYield_inv h
        exact ⟨h1 ▸ h2, h3, batchRaw, h1⟩
    · obtain ⟨h1, h2, h3⟩ := pollYield_inv h
      exact ⟨h1 ▸ h2, h3, batchRaw, h1⟩

theorem pollStep_connFail {env : PollEnv} {pp : PollParams} {so : Int}
    {st : PollState} {o : Int} {rl : Nat}
    (ho : st.offset = some o) (he : pp.end_offset = none)
    (hf : env.fetchAt st.fetch_calls o = .connFail)
    (hrl : pp.retry_limit = some rl) :
    pollStep env pp so st =
      if st.retry_attempts > rl then .raise .connFailure
      else .retry { st with
        retry_attempts := st.retry_attempts + 1
        fetch_calls := st.fetch_calls + 1 } := by
  unfold pollStep
  rw [ho, he, hrl]
  dsimp only [pyGTopt]
  rw [hf]
  rfl

theorem pollRun_allFail_aux {env : PollEnv} {pp : PollParams}
    (hf : ∀ i o, env.fetchAt i o = .connFail) (he : pp.end_offset = none)
    {r : Nat} (hrl : pp.retry_limit = some r) (so : Int) :
    ∀ (fuel : Nat) (st : PollState) (o : Int), st.offset = some o →
      st.retry_attempts ≤ r + 1 → r + 2 - st.retry_attempts ≤ fuel →
      pollRun env pp so fuel st =
        (List.replicate (r + 1 - st.retry_attempts) .retried,
          .raised .connFailure) := by
  intro fuel
  induction fuel with
  | zero =>
    intro st o h1 h2 h3
    omega
  | succ n ih =>
    intro st o h1 h2 h3
    simp only [pollRun]
    rw [pollStep_connFail h1 he (hf _ _) hrl]
    by_cases hgt : st.retry_attempts > r
    · rw [if_pos hgt]
      have ha : st.retry_attempts = r + 1 := by omega
      rw [ha]
      simp
    · rw [if_neg hgt]
      have hih := ih { st with
          retry_attempts := st.retry_attempts + 1
          fetch_calls := st.fetch_calls + 1 } o h1
        (show st.retry_attempts + 1 ≤ r + 1 by omega)
        (show r + 2 - (st.retry_attempts + 1) ≤ n by omega)
      dsimp only
      rw [hih]
      rw [show r + 1 - st.retry_attempts = (r + 1 - (st.retry_attempts + 1)) + 1
        by omega]
      rw [List.replicate_succ]

/-- The all-failures environment: every fetch raises `ConnectionFailure`. -/
def envAllFail : PollEnv := ⟨fun _ _ => .connFail, 0, 100⟩

/-- An environment whose every fetch returns one message at offset 3. -/
def envOneOk : PollEnv := ⟨fun _ _ => .ok [(3, [7])], 0, 100⟩

/-- C6 counterexample: with `retry_limit = 3` and every fetch raising a
connection failure, the poller performs **4** retries (sleep + increment)
before re-raising — one more than the claimed `retry_limit` — because the
guard `retry_attempts > retry_limit` is checked before the increment. -/
theorem poll_retries_limit_plus_one :
    pollRun envAllFail ⟨none, 1, some 3⟩ 0 10 (pollInitState (some 0)) =
      (List.replicate 4 .retried, .raised .connFailure) := by
  decide

/-- C6 (amended): when every fetch raises a connection failure, the poller
retries exactly `retry_limit + 1` times (sleeping `poll_interval` and
incrementing the retry counter before each retry) and then re-raises the
failure; and any successful fetch resets the retry counter to 0. -/
theorem poll_retry_semantics :
    (∀ (env : PollEnv) (pp : PollParams) (so o : Int) (r fuel : Nat)
        (st : PollState),
      (∀ i x, env.fetchAt i x = .connFail) → pp.end_offset = none →
      pp.retry_limit = some r → st.offset = some o → st.retry_attempts = 0 →
      r + 2 ≤ fuel →
      pollRun env pp so fuel st =
        (List.replicate (r + 1) .retried, .raised .connFailure)) ∧
    ∀ (env : PollEnv) (pp : PollParams) (so : Int) (st : PollState) b ms
        status st',
      pollStep env pp so st = .yielded b ms status st' →
      st'.retry_attempts = 0 := by
  constructor
  · intro env pp so o r fuel st hf he hrl ho ha hfuel
    have hx := pollRun_allFail_aux hf he hrl so fuel st o ho (by omega) (by omega)
    rw [ha] at hx
    simpa using hx
  · intro env pp so st b ms status st' h
    exact (pollStep_yielded_inv h).2.1

/-- Witness for C6 (amended): `retry_limit = 2` gives 3 retries then the
re-raise, and a successful first fetch leaves the retry counter at 0. -/
theorem poll_retry_semantics_witness :
    pollRun envAllFail ⟨none, 1, some 2⟩ 0 4 (pollInitState (some 0)) =
        (List.replicate 3 .retried, .raised .connFailure) ∧
      (PollState.mk (some 13) 0 false (some 3) 1 1 1 0 1).retry_attempts = 0 := by
  constructor
  · exact poll_retry_semantics.1 envAllFail ⟨none, 1, some 2⟩ 0 0 2 4
      (pollInitState (some 0)) (fun _ _ => rfl) rfl rfl rfl rfl (by omega)
  · exact poll_retry_semantics.2 envOneOk ⟨none, 1, some 3⟩ 0
      (pollInitState (some 0)) [(3, [7])] [[7]]
      ⟨0, some 13, some 3, 1, 1, 1, 0⟩
      ⟨some 13, 0, false, some 3, 1, 1, 1, 0, 1⟩ (by decide)

/-- C7: when `poll` is called with no start offset, `start_offset` is
resolved to `latest_offset()` (and recorded as `PollingStatus.start_offset`
would be), but the loop-local `offset` is never assigned: the first fetch
packs `None` with `struct.pack('>Q', ...)` and raises `struct.error`
instead of fetching at the resolved offset.  (When a start offset is
given, `pollInitState` carries it into the first fetch.) -/
theorem poll_no_offset_struct_error (env : PollEnv) (pp : PollParams)
    (fuel : Nat) (hfuel : 1 ≤ fuel) :
    pollStartOffset env none = env.latest ∧
      pollRun env pp (pollStartOffset env none) fuel (pollInitState none) =
        ([], .raised .structError) := by
  refine ⟨rfl, ?_⟩
  obtain ⟨n, rfl⟩ : ∃ n, fuel = n + 1 := ⟨fuel - 1, by omega⟩
  have hstep : pollStep env pp (pollStartOffset env none) (pollInitState none) =
      .raise .structError := by
    unfold pollStep
    cases hpe : pp.end_offset <;> rfl
  simp only [pollRun, hstep]

/-- Witness for C7 at a concrete environment. -/
theorem poll_no_offset_struct_error_witness :
    pollRun envAllFail ⟨none, 1, some 3⟩ (pollStartOffset envAllFail none) 1
        (pollInitState none) = ([], .raised .structError) :=
  (poll_no_offset_struct_error envAllFail ⟨none, 1, some 3⟩ 1 (by omega)).2

/-- C8: with `end_offset = E`, every batch the poller emits contains only
messages with offsets `≤ E` (messages past `E` are filtered out before the
yield, and the yielded `messages` list is exactly the payloads of that
filtered batch), and whenever the current offset exceeds `E` the loop
terminates before the next fetch. -/
theorem poll_end_offset_bound (env : PollEnv) (pp : PollParams) (so : Int)
    (st : PollState) (E : Int) (he : pp.end_offset = some E) :
    (∀ b ms status st', pollStep env pp so st = .yielded b ms status st' →
        (∀ om ∈ b, om.1 ≤ E) ∧ ms = b.map fun om => om.2) ∧
      ∀ o, st.offset = some o → E < o → pollStep env pp so st = .done := by
  constructor
  · intro b ms status st' h
    obtain ⟨hms, -, ⟨batchRaw, hb⟩⟩ := pollStep_yielded_inv h
    rw [he] at hb
    dsimp only at hb
    refine ⟨?_, hms⟩
    intro om hom
    rw [hb] at hom
    have := List.mem_filter.1 hom
    exact of_decide_eq_true this.2
  · intro o ho hlt
    unfold pollStep
    rw [ho, he]
    simp [pyGTopt, hlt]

/-- Witness for C8: termination before the next fetch once the offset (5)
exceeds `end_offset` (3). -/
theorem poll_end_offset_bound_witness :
    pollStep envOneOk ⟨some 3, 1, some 3⟩ 0 (pollInitState (some 5)) = .done :=
  (poll_end_offset_bound envOneOk ⟨some 3, 1, some 3⟩ 0 (pollInitState (some 5))
    3 rfl).2 5 rfl (by omega)

end PyKafka
